import Mathlib

/-!
Verification of `fill_array_with_rng.cpp`: a generic `fillRnd` routine that
fills an iterable numeric container with pseudo-random values drawn from
`std::mt19937` through `std::uniform_int_distribution` /
`std::uniform_real_distribution`, plus two `operator<<` display helpers and a
demonstration `main`.

The embedding models:

* the `std::mt19937` engine exactly as the C++ standard specifies it
  (state of 624 thirty-two bit words, the seeding recurrence with multiplier
  1812433253, the in-place GFSR twist, the 4-step output tempering); machine
  words are `Nat` reduced modulo `2^32`.  The model reproduces the published
  test vectors of the engine (first outputs 3499211612, 581869302, ... for
  seed 5489 and 1791095845 for seed 1).
* `std::uniform_int_distribution<int>::operator()` as libstdc++ implements it
  for this engine: with `urange = max - min` and the engine range
  `2^32 - 1`, either the downscale-with-rejection path (when
  `urange < 2^32 - 1`) or the pass-through path (when the ranges coincide).
  The upscaling path for `urange > 2^32 - 1` cannot arise for element types
  of at most 32 bits (the only ones this repository instantiates) and is not
  modelled.  The rejection loop of the downscale path is fuel-bounded, so a
  draw returns `Option`; `none` means the bounded model ran out of fuel,
  which the unbounded C++ loop never reports.
* `std::uniform_real_distribution<float>::operator()` with exact rational
  arithmetic in place of IEEE `float`: one raw engine draw `r` becomes
  `r / 2^32 * (max - min) + min` (libstdc++'s single-draw
  `generate_canonical` for a 24-bit mantissa and a 32-bit engine, composed
  with the affine map of the distribution).
* `fillRnd` itself — one `std::mt19937 generator(seed)` per call, the static
  `std::conditional` choice of the distribution, and `std::generate` over
  the container drawing once per element — at the two element types the
  repository instantiates: `int` (as `Int`) and `float` (as `Rat`).
  The C++ default argument `seed = 1337` is modelled by explicit wrappers.
* the two `operator<<` display helpers as pure `String` renderers
  parameterised by the stream's element formatter.
* the type-level machinery of lines 18-34 (`is_iterable`,
  `std::is_arithmetic`, and the `std::enable_if` default template argument)
  as a small reified model of C++ template substitution, to settle the
  compile-time-rejection claim.  Note the source writes
  `std::enable_if<cond, void>` without `::type`.
-/

set_option maxRecDepth 1000000

namespace FillArray

/-! ## The mt19937 engine ([rand.eng.mers], parameters of `std::mt19937`) -/

/-- 2^32, the modulus for the engine's 32-bit words. -/
def U32 : Nat := 4294967296

/-- Seeding recurrence: given word `prev` at index `i - 1`, produce the `k`
following words via
`x_i = (1812433253 * (x_{i-1} ^ (x_{i-1} >> 30)) + i) mod 2^32`. -/
def mtInitAux : Nat → Nat → Nat → List Nat
  | _, _, 0 => []
  | prev, i, k + 1 =>
    let x := (1812433253 * (prev ^^^ (prev >>> 30)) + i) % U32
    x :: mtInitAux x (i + 1) k

/-- The 624-word state installed by `mt19937(seed)`. -/
def mtInit (sd : Nat) : List Nat :=
  let x0 := sd % U32
  x0 :: mtInitAux x0 1 623

/-- One step of the in-place GFSR twist at index `i`:
`y = (x[i] & 0x80000000) | (x[(i+1) % 624] & 0x7fffffff)` and
`x[i] = x[(i+397) % 624] ^ (y >> 1) ^ (y odd ? 0x9908b0df : 0)`.
The reads at `(i+1) % 624` and `(i+397) % 624` see the partially updated
state, exactly as the in-place C++ loop does. -/
def twistStep (x : List Nat) (i : Nat) : List Nat :=
  let y := (x.getD i 0 &&& 0x80000000) ||| (x.getD ((i + 1) % 624) 0 &&& 0x7fffffff)
  let v := (x.getD ((i + 397) % 624) 0 ^^^ (y >>> 1)) ^^^ (if y % 2 = 1 then 0x9908b0df else 0)
  x.set i v

/-- Full regeneration of the 624-word state (`_M_gen_rand` in libstdc++). -/
def twist (x : List Nat) : List Nat :=
  (List.range 624).foldl twistStep x

/-- mt19937 output tempering: `y ^= y >> 11` (the and-mask `d` is all ones),
`y ^= (y << 7) & 0x9d2c5680`, `y ^= (y << 15) & 0xefc60000`, `y ^= y >> 18`. -/
def temper (y : Nat) : Nat :=
  let y1 := y ^^^ (y >>> 11)
  let y2 := y1 ^^^ ((y1 <<< 7) &&& 0x9d2c5680)
  let y3 := y2 ^^^ ((y2 <<< 15) &&& 0xefc60000)
  y3 ^^^ (y3 >>> 18)

/-- Engine state: the 624 words plus the read position (`_M_p`;
`p = 624` means "twist before the next draw"). -/
structure MTState where
  x : List Nat
  p : Nat

/-- One call of `generator()`: twist once all 624 words are consumed, then
temper the word at the read position and advance. -/
def mtNext (s : MTState) : Nat × MTState :=
  if 624 ≤ s.p then
    let x2 := twist s.x
    (temper (x2.getD 0 0), ⟨x2, 1⟩)
  else
    (temper (s.x.getD s.p 0), ⟨s.x, s.p + 1⟩)

/-- `std::mt19937 generator(seed)` for an `int` seed: the seed value is
reduced modulo calling-convention conversions to the engine's 32-bit word
(`Int.emod`, hence non-negative) and the position starts at 624. -/
def mtFromSeed (seed : Int) : MTState :=
  ⟨mtInit (seed % (U32 : Int)).toNat, 624⟩

/-- All 624 state words are genuine 32-bit words. -/
def wfState (s : MTState) : Prop := ∀ v ∈ s.x, v < U32

/-! ## `std::uniform_int_distribution<int>` (libstdc++ `operator()` for a
32-bit engine; `disType dis(min, max)` and `dis(generator)` on lines 49-51) -/

/-- `__urange = __uctype(__param.b()) - __uctype(__param.a())`:
the number of values in `[min, max]`, minus one. -/
def urangeOf (mn mx : Int) : Nat := (mx - mn).toNat

/-- `__scaling = __urngrange / __uerange` with `__urngrange = 2^32 - 1`
and `__uerange = __urange + 1`. -/
def uiScaling (mn mx : Int) : Nat := (U32 - 1) / (urangeOf mn mx + 1)

/-- `__past = __uerange * __scaling`: raw draws below `__past` are accepted. -/
def uiPast (mn mx : Int) : Nat := (urangeOf mn mx + 1) * uiScaling mn mx

/-- The rejection loop `do __ret = __urng(); while (__ret >= __past);`,
bounded by fuel.  Returns the accepted raw draw and the advanced engine. -/
def rejectDraw (past : Nat) : Nat → MTState → Option (Nat × MTState)
  | 0, _ => none
  | fuel + 1, s =>
    if (mtNext s).1 < past then some (mtNext s) else rejectDraw past fuel (mtNext s).2

/-- `dis(generator)` for the integer distribution: downscale an accepted raw
draw by `__scaling` and shift by `min` (the branch `__urngrange > __urange`),
or pass a raw draw through unchanged (the branch `__urngrange == __urange`).
The third libstdc++ branch (upscaling, `__urngrange < __urange`) cannot arise
for element types of at most 32 bits and is not modelled. -/
def uniformIntDraw (mn mx : Int) (fuel : Nat) (s : MTState) : Option (Int × MTState) :=
  if urangeOf mn mx < U32 - 1 then
    match rejectDraw (uiPast mn mx) fuel s with
    | none => none
    | some (r, s2) => some (mn + (r / uiScaling mn mx : Nat), s2)
  else
    some (mn + ((mtNext s).1 : Nat), (mtNext s).2)

/-! ## `std::uniform_real_distribution<float>` over exact rationals -/

/-- The value a raw engine draw `r` maps to:
`generate_canonical` yields `r / 2^32` (one draw suffices for float's 24
mantissa bits against a 32-bit engine), and the distribution returns
`canonical * (max - min) + min`. -/
def urValue (mn mx : Rat) (r : Nat) : Rat :=
  (r : Rat) / (U32 : Rat) * (mx - mn) + mn

/-- `dis(generator)` for the real distribution: one raw draw, no rejection. -/
def uniformRealDraw (mn mx : Rat) (s : MTState) : Rat × MTState :=
  (urValue mn mx (mtNext s).1, (mtNext s).2)

/-! ## `fillRnd` (lines 35-54) at the two element types the repository
instantiates.  `std::generate(arr.begin(), arr.end(), [&]{ return dis(generator); })`
walks the container in order, overwriting each element with the next draw;
the initial element values are never read. -/

/-- The `std::generate` loop for the integer instantiation: one draw per
element position, threading the single per-call generator. -/
def fillRndIntGo (mn mx : Int) (fuel : Nat) : List Int → MTState → Option (List Int)
  | [], _ => some []
  | _ :: rest, s =>
    match uniformIntDraw mn mx fuel s with
    | none => none
    | some (v, s2) =>
      match fillRndIntGo mn mx fuel rest s2 with
      | none => none
      | some vs => some (v :: vs)

/-- `fillRnd(arr, min, max, seed)` for an integer container: construct one
generator seeded with `seed`, then overwrite every element. -/
def fillRndInt (arr : List Int) (mn mx : Int) (fuel : Nat) (seed : Int) : Option (List Int) :=
  fillRndIntGo mn mx fuel arr (mtFromSeed seed)

/-- `fillRnd(arr, min, max)` with the seed argument omitted: the C++ default
argument `int seed = 1337` applies. -/
def fillRndIntDefault (arr : List Int) (mn mx : Int) (fuel : Nat) : Option (List Int) :=
  fillRndInt arr mn mx fuel 1337

/-- The first `n` values of the integer draw sequence of a freshly seeded
generator (what "freshly sampled, one draw per element in order" means). -/
def drawsIntGo (mn mx : Int) (fuel : Nat) : Nat → MTState → Option (List Int)
  | 0, _ => some []
  | n + 1, s =>
    match uniformIntDraw mn mx fuel s with
    | none => none
    | some (v, s2) =>
      match drawsIntGo mn mx fuel n s2 with
      | none => none
      | some vs => some (v :: vs)

/-- The first `n` integer draws after seeding with `seed`. -/
def drawsInt (mn mx : Int) (fuel : Nat) (seed : Int) (n : Nat) : Option (List Int) :=
  drawsIntGo mn mx fuel n (mtFromSeed seed)

/-- The `std::generate` loop for the float instantiation. -/
def fillRndFloatGo (mn mx : Rat) : List Rat → MTState → List Rat
  | [], _ => []
  | _ :: rest, s =>
    match uniformRealDraw mn mx s with
    | (v, s2) => v :: fillRndFloatGo mn mx rest s2

/-- `fillRnd(arr, min, max, seed)` for a float container. -/
def fillRndFloat (arr : List Rat) (mn mx : Rat) (seed : Int) : List Rat :=
  fillRndFloatGo mn mx arr (mtFromSeed seed)

/-- `fillRnd(arr, min, max)` for a float container, seed omitted
(default 1337); this is the call `fillRnd(b, 1, 100)` of the demonstration. -/
def fillRndFloatDefault (arr : List Rat) (mn mx : Rat) : List Rat :=
  fillRndFloat arr mn mx 1337

/-- The first `n` values of the float draw sequence. -/
def drawsFloatGo (mn mx : Rat) : Nat → MTState → List Rat
  | 0, _ => []
  | n + 1, s =>
    match uniformRealDraw mn mx s with
    | (v, s2) => v :: drawsFloatGo mn mx n s2

/-- The first `n` float draws after seeding with `seed`. -/
def drawsFloat (mn mx : Rat) (seed : Int) (n : Nat) : List Rat :=
  drawsFloatGo mn mx n (mtFromSeed seed)

/-! ## The static distribution choice (`disType`, lines 43-47) -/

/-- The two distribution strategies `std::conditional` can select. -/
inductive DistChoice
  | intDist
  | realDist
deriving DecidableEq

/-- `std::conditional<std::is_integral<value_type>::value,
std::uniform_int_distribution<value_type>,
std::uniform_real_distribution<value_type>>::type`, as a function of the
`is_integral` flag of the element type. -/
def disTypeFor (isIntegral : Bool) : DistChoice :=
  if isIntegral then DistChoice.intDist else DistChoice.realDist

/-! ## The compile-time capability restriction (lines 18-21 and 31-34) -/

/-- Reified C++ type expression used as the default template argument of
`fillRnd`.  `enableIfType c` is the type `std::enable_if<c, void>` itself —
the class template specialization, a well-formed type whatever `c` is.
`enableIfMember c` is `typename std::enable_if<c, void>::type`, which exists
only when `c` holds (this is what triggers SFINAE). -/
inductive TemplateArg
  | enableIfType (cond : Bool)
  | enableIfMember (cond : Bool)
deriving DecidableEq

/-- Whether substituting the type expression succeeds, per the C++ rules:
naming the specialization `std::enable_if<c, void>` always succeeds, while
its member `::type` exists only when `c` is `true`. -/
def substitutionSucceeds : TemplateArg → Bool
  | TemplateArg.enableIfType _ => true
  | TemplateArg.enableIfMember c => c

/-- The constraint the source actually writes on lines 31-34:
`typename = std::enable_if<std::is_arithmetic<typename T::value_type>::value
&& is_iterable<T>::value, void>` — note: no `::type`.  The two `Bool`
arguments are the values of `std::is_arithmetic<T::value_type>` and
`is_iterable<T>` for the candidate container type. -/
def fillRndConstraint (elemArithmetic iterable : Bool) : TemplateArg :=
  TemplateArg.enableIfType (elemArithmetic && iterable)

/-- Whether `fillRnd<T>` can be instantiated, i.e. whether substituting the
default template argument succeeds for a container with the given
`std::is_arithmetic` / `is_iterable` values. -/
def fillRndInstantiable (elemArithmetic iterable : Bool) : Bool :=
  substitutionSucceeds (fillRndConstraint elemArithmetic iterable)

/-- The constraint the documentation describes ("checked with is_iterable
and std::is_arithmetic"): the same condition but with `::type` taken, so
substitution fails exactly when the condition is false. -/
def fillRndIntendedConstraint (elemArithmetic iterable : Bool) : TemplateArg :=
  TemplateArg.enableIfMember (elemArithmetic && iterable)

/-! ## The display helpers (`operator<<`, lines 57-76) -/

/-- `std::copy(v.begin(), v.end() - 1, std::ostream_iterator<T>(out, ", "))`:
every element of the given list is written followed by `", "`. -/
def sepCopy (f : α → String) : List α → String
  | [] => ""
  | a :: rest => f a ++ ", " ++ sepCopy f rest

/-- `operator<<` for `std::vector`: nothing for an empty vector; otherwise
`'['`, then all elements but the last each followed by `", "`, then
`v.back()`, then `"]"`.  `f` renders one element the way the stream would. -/
def vecOut (f : α → String) (v : List α) : String :=
  match v with
  | [] => ""
  | a :: rest => "[" ++ sepCopy f (List.dropLast (a :: rest)) ++ f (List.getLastD rest a) ++ "]"

/-- `operator<<` for `std::array`: identical logic to the vector overload. -/
def arrOut (f : α → String) (v : List α) : String :=
  match v with
  | [] => ""
  | a :: rest => "[" ++ sepCopy f (List.dropLast (a :: rest)) ++ f (List.getLastD rest a) ++ "]"

/-- Modelled from the spec: "render a sequence as a bracketed,
comma-separated list of its elements" — elements joined by `", "` between
`"["` and `"]"`, for every sequence including the empty one. -/
def commaSep (f : α → String) : List α → String
  | [] => ""
  | [a] => f a
  | a :: rest => f a ++ ", " ++ commaSep f rest

/-- Modelled from the spec: the bracketed, comma-separated rendering. -/
def specRender (f : α → String) (v : List α) : String :=
  "[" ++ commaSep f v ++ "]"

/-! ## Helper lemmas: every engine word is a 32-bit word -/

theorem U32_eq : U32 = 2 ^ 32 := by norm_num [U32]

theorem shiftr_lt {y : Nat} (k : Nat) (h : y < 2 ^ 32) : y >>> k < 2 ^ 32 := by
  rw [Nat.shiftRight_eq_div_pow]
  exact lt_of_le_of_lt (Nat.div_le_self _ _) h

theorem temper_lt {y : Nat} (h : y < U32) : temper y < U32 := by
  rw [U32_eq] at h ⊢
  simp only [temper]
  apply Nat.xor_lt_two_pow
  case left =>
    apply Nat.xor_lt_two_pow
    case left =>
      apply Nat.xor_lt_two_pow
      case left => exact Nat.xor_lt_two_pow h (shiftr_lt 11 h)
      case right => exact Nat.and_lt_two_pow _ (by norm_num)
    case right => exact Nat.and_lt_two_pow _ (by norm_num)
  case right =>
    apply shiftr_lt
    apply Nat.xor_lt_two_pow
    case left =>
      apply Nat.xor_lt_two_pow
      case left => exact Nat.xor_lt_two_pow h (shiftr_lt 11 h)
      case right => exact Nat.and_lt_two_pow _ (by norm_num)
    case right => exact Nat.and_lt_two_pow _ (by norm_num)

theorem getD_lt {l : List Nat} (h : ∀ v ∈ l, v < U32) (i : Nat) : l.getD i 0 < U32 := by
  rw [List.getD_eq_getElem?_getD]
  cases h2 : l[i]? with
  | none => simp [U32]
  | some a => simpa using h a (List.getElem?_mem h2)

theorem twistStep_wf {x : List Nat} (h : ∀ v ∈ x, v < U32) (i : Nat) :
    ∀ v ∈ twistStep x i, v < U32 := by
  intro v hv
  simp only [twistStep] at hv
  rcases List.mem_or_eq_of_mem_set hv with h1 | rfl
  · exact h _ h1
  · rw [U32_eq]
    have hy : (x.getD i 0 &&& 0x80000000) ||| (x.getD ((i + 1) % 624) 0 &&& 0x7fffffff) < 2 ^ 32 :=
      Nat.or_lt_two_pow (Nat.and_lt_two_pow _ (by norm_num)) (Nat.and_lt_two_pow _ (by norm_num))
    have h397 := getD_lt h ((i + 397) % 624)
    rw [U32_eq] at h397
    refine Nat.xor_lt_two_pow (Nat.xor_lt_two_pow h397 (shiftr_lt 1 hy)) ?_
    split <;> norm_num

theorem foldl_twistStep_wf : ∀ (l x : List Nat), (∀ v ∈ x, v < U32) →
    ∀ v ∈ List.foldl twistStep x l, v < U32 := by
  intro l
  induction l with
  | nil => intro x h; simpa using h
  | cons i rest ih =>
    intro x h
    simp only [List.foldl_cons]
    exact ih _ (twistStep_wf h i)

theorem twist_wf {x : List Nat} (h : ∀ v ∈ x, v < U32) : ∀ v ∈ twist x, v < U32 :=
  foldl_twistStep_wf _ x h

theorem mtInitAux_wf : ∀ (k prev i : Nat), ∀ v ∈ mtInitAux prev i k, v < U32 := by
  intro k
  induction k with
  | zero => intro prev i v hv; simp [mtInitAux] at hv
  | succ k ih =>
    intro prev i v hv
    simp only [mtInitAux, List.mem_cons] at hv
    rcases hv with rfl | hv
    · exact Nat.mod_lt _ (by norm_num [U32])
    · exact ih _ _ _ hv

theorem mtInit_wf (sd : Nat) : ∀ v ∈ mtInit sd, v < U32 := by
  intro v hv
  simp only [mtInit, List.mem_cons] at hv
  rcases hv with rfl | hv
  · exact Nat.mod_lt _ (by norm_num [U32])
  · exact mtInitAux_wf _ _ _ _ hv

theorem mtFromSeed_wf (seed : Int) : wfState (mtFromSeed seed) :=
  mtInit_wf _

theorem mtNext_fst_lt {s : MTState} (h : wfState s) : (mtNext s).1 < U32 := by
  simp only [mtNext]
  split
  · dsimp only
    exact temper_lt (getD_lt (twist_wf h) 0)
  · dsimp only
    exact temper_lt (getD_lt h _)

theorem mtNext_snd_wf {s : MTState} (h : wfState s) : wfState (mtNext s).2 := by
  simp only [mtNext]
  split
  · dsimp only [wfState]
    exact twist_wf h
  · dsimp only [wfState]
    exact h

/-! ## Helper lemmas: the integer distribution stays within its bounds -/

theorem rejectDraw_some {past : Nat} : ∀ {fuel : Nat} {s : MTState} {r : Nat} {s2 : MTState},
    wfState s → rejectDraw past fuel s = some (r, s2) → r < past ∧ wfState s2 := by
  intro fuel
  induction fuel with
  | zero => intro s r s2 _ h; simp [rejectDraw] at h
  | succ fuel ih =>
    intro s r s2 hwf h
    simp only [rejectDraw] at h
    by_cases hlt : (mtNext s).1 < past
    · rw [if_pos hlt] at h
      injection h with h3
      constructor
      · rw [h3] at hlt
        exact hlt
      · have h4 := mtNext_snd_wf hwf
        rw [h3] at h4
        exact h4
    · rw [if_neg hlt] at h
      exact ih (mtNext_snd_wf hwf) h

theorem uniformIntDraw_some {mn mx v : Int} {fuel : Nat} {s s2 : MTState}
    (hle : mn ≤ mx) (hwf : wfState s)
    (h : uniformIntDraw mn mx fuel s = some (v, s2)) :
    (mn ≤ v ∧ v ≤ mx) ∧ wfState s2 := by
  have hur : ((urangeOf mn mx : Nat) : Int) = mx - mn := Int.toNat_of_nonneg (by omega)
  unfold uniformIntDraw at h
  by_cases hcase : urangeOf mn mx < U32 - 1
  · rw [if_pos hcase] at h
    cases hrj : rejectDraw (uiPast mn mx) fuel s with
    | none => rw [hrj] at h; cases h
    | some rs =>
      obtain ⟨r, s3⟩ := rs
      rw [hrj] at h
      injection h with h3
      rw [Prod.mk.injEq] at h3
      obtain ⟨hv, hs⟩ := h3
      subst hs
      subst hv
      obtain ⟨hr, hwf3⟩ := rejectDraw_some hwf hrj
      have hsc : 0 < uiScaling mn mx := Nat.div_pos (by omega) (by omega)
      have hdiv : r / uiScaling mn mx < urangeOf mn mx + 1 := by
        rw [Nat.div_lt_iff_lt_mul hsc]
        exact hr
      refine ⟨⟨?_, ?_⟩, hwf3⟩ <;>
      · generalize hg : r / uiScaling mn mx = d at hdiv ⊢
        omega
  · rw [if_neg hcase] at h
    injection h with h3
    rw [Prod.mk.injEq] at h3
    obtain ⟨hv, hs⟩ := h3
    subst hs
    subst hv
    have hr := mtNext_fst_lt hwf
    have hU : U32 = 4294967296 := rfl
    exact ⟨⟨by omega, by omega⟩, mtNext_snd_wf hwf⟩

/-! ## Helper lemmas: the integer fill loop -/

theorem fillRndIntGo_range {mn mx : Int} {fuel : Nat} (hle : mn ≤ mx) :
    ∀ {l : List Int} {s : MTState} {out : List Int}, wfState s →
      fillRndIntGo mn mx fuel l s = some out → ∀ e ∈ out, mn ≤ e ∧ e ≤ mx := by
  intro l
  induction l with
  | nil =>
    intro s out _ h e he
    simp only [fillRndIntGo] at h
    injection h with h2
    subst h2
    cases he
  | cons a rest ih =>
    intro s out hwf h e he
    simp only [fillRndIntGo] at h
    split at h
    · cases h
    next v s2 hd =>
      split at h
      · cases h
      next vs2 hg =>
        injection h with h2
        subst h2
        obtain ⟨hb, hwf2⟩ := uniformIntDraw_some hle hwf hd
        rcases List.mem_cons.mp he with rfl | he2
        · exact hb
        · exact ih hwf2 hg e he2

theorem fillRndIntGo_congr {mn mx : Int} {fuel : Nat} :
    ∀ (l1 l2 : List Int) (s : MTState), l1.length = l2.length →
      fillRndIntGo mn mx fuel l1 s = fillRndIntGo mn mx fuel l2 s := by
  intro l1
  induction l1 with
  | nil =>
    intro l2 s hlen
    cases l2 with
    | nil => rfl
    | cons b t2 => simp at hlen
  | cons a t1 ih =>
    intro l2 s hlen
    cases l2 with
    | nil => simp at hlen
    | cons b t2 =>
      simp only [List.length_cons] at hlen
      simp only [fillRndIntGo]
      cases hd : uniformIntDraw mn mx fuel s with
      | none => rfl
      | some vs =>
        obtain ⟨v, s2⟩ := vs
        dsimp only
        rw [ih t2 s2 (by omega)]

theorem fillRndIntGo_eq_draws {mn mx : Int} {fuel : Nat} :
    ∀ (l : List Int) (s : MTState),
      fillRndIntGo mn mx fuel l s = drawsIntGo mn mx fuel l.length s := by
  intro l
  induction l with
  | nil => intro s; rfl
  | cons a rest ih =>
    intro s
    simp only [fillRndIntGo, List.length_cons, drawsIntGo]
    cases hd : uniformIntDraw mn mx fuel s with
    | none => rfl
    | some vs =>
      obtain ⟨v, s2⟩ := vs
      dsimp only
      rw [ih s2]

theorem fillRndIntGo_length {mn mx : Int} {fuel : Nat} :
    ∀ {l : List Int} {s : MTState} {out : List Int},
      fillRndIntGo mn mx fuel l s = some out → out.length = l.length := by
  intro l
  induction l with
  | nil =>
    intro s out h
    simp only [fillRndIntGo] at h
    injection h with h2
    subst h2
    rfl
  | cons a rest ih =>
    intro s out h
    simp only [fillRndIntGo] at h
    split at h
    · cases h
    next v s2 hd =>
      split at h
      · cases h
      next vs2 hg =>
        injection h with h2
        subst h2
        simp [ih hg]

theorem fillRndIntGo_take {mn mx : Int} {fuel : Nat} :
    ∀ (l1 l2 : List Int) (s : MTState) (out : List Int), l1.length ≤ l2.length →
      fillRndIntGo mn mx fuel l2 s = some out →
      fillRndIntGo mn mx fuel l1 s = some (out.take l1.length) := by
  intro l1
  induction l1 with
  | nil =>
    intro l2 s out _ _
    rfl
  | cons a t1 ih =>
    intro l2 s out hlen h
    cases l2 with
    | nil => simp at hlen
    | cons b t2 =>
      simp only [List.length_cons] at hlen
      simp only [fillRndIntGo] at h ⊢
      split at h
      · cases h
      next v s2 hd =>
        split at h
        · cases h
        next vs2 hg =>
          injection h with h2
          subst h2
          rw [ih t2 s2 vs2 (by omega) hg]
          simp

/-! ## Helper lemmas: the real distribution and the float fill loop -/

theorem urValue_mem {mn mx : Rat} {r : Nat} (hle : mn ≤ mx) (hr : r < U32) :
    mn ≤ urValue mn mx r ∧ urValue mn mx r ≤ mx := by
  have hU : (0 : Rat) < (U32 : Rat) := by
    rw [show ((U32 : Nat) : Rat) = ((4294967296 : Nat) : Rat) from rfl]
    norm_num
  have h0 : (0 : Rat) ≤ (r : Rat) / (U32 : Rat) := by positivity
  have h1 : (r : Rat) / (U32 : Rat) ≤ 1 := by
    rw [div_le_one hU]
    exact_mod_cast hr.le
  have hd : (0 : Rat) ≤ mx - mn := by linarith
  constructor
  · have h2 := mul_nonneg h0 hd
    simp only [urValue]
    linarith
  · have h2 := mul_le_of_le_one_left hd h1
    simp only [urValue]
    linarith

theorem fillRndFloatGo_range {mn mx : Rat} (hle : mn ≤ mx) :
    ∀ (l : List Rat) (s : MTState), wfState s →
      ∀ e ∈ fillRndFloatGo mn mx l s, mn ≤ e ∧ e ≤ mx := by
  intro l
  induction l with
  | nil => intro s _ e he; cases he
  | cons a rest ih =>
    intro s hwf e he
    simp only [fillRndFloatGo, uniformRealDraw] at he
    rcases List.mem_cons.mp he with rfl | he2
    · exact urValue_mem hle (mtNext_fst_lt hwf)
    · exact ih _ (mtNext_snd_wf hwf) e he2

theorem fillRndFloatGo_congr {mn mx : Rat} :
    ∀ (l1 l2 : List Rat) (s : MTState), l1.length = l2.length →
      fillRndFloatGo mn mx l1 s = fillRndFloatGo mn mx l2 s := by
  intro l1
  induction l1 with
  | nil =>
    intro l2 s hlen
    cases l2 with
    | nil => rfl
    | cons b t2 => simp at hlen
  | cons a t1 ih =>
    intro l2 s hlen
    cases l2 with
    | nil => simp at hlen
    | cons b t2 =>
      simp only [List.length_cons] at hlen
      simp only [fillRndFloatGo, uniformRealDraw]
      rw [ih t2 (mtNext s).2 (by omega)]

theorem fillRndFloatGo_length {mn mx : Rat} :
    ∀ (l : List Rat) (s : MTState), (fillRndFloatGo mn mx l s).length = l.length := by
  intro l
  induction l with
  | nil => intro s; rfl
  | cons a rest ih =>
    intro s
    simp only [fillRndFloatGo, uniformRealDraw]
    simp [ih]

theorem fillRndFloatGo_eq_draws {mn mx : Rat} :
    ∀ (l : List Rat) (s : MTState),
      fillRndFloatGo mn mx l s = drawsFloatGo mn mx l.length s := by
  intro l
  induction l with
  | nil => intro s; rfl
  | cons a rest ih =>
    intro s
    simp only [fillRndFloatGo, uniformRealDraw, List.length_cons, drawsFloatGo]
    rw [ih]

theorem fillRndFloatGo_take {mn mx : Rat} :
    ∀ (l1 l2 : List Rat) (s : MTState), l1.length ≤ l2.length →
      fillRndFloatGo mn mx l1 s = (fillRndFloatGo mn mx l2 s).take l1.length := by
  intro l1
  induction l1 with
  | nil => intro l2 s _; rfl
  | cons a t1 ih =>
    intro l2 s hlen
    cases l2 with
    | nil => simp at hlen
    | cons b t2 =>
      simp only [List.length_cons] at hlen
      simp only [fillRndFloatGo, uniformRealDraw]
      rw [ih t2 (mtNext s).2 (by omega)]
      simp

/-! ## Helper lemmas: the display helpers -/

theorem sepCopy_getLastD (f : α → String) :
    ∀ (rest : List α) (a : α),
      sepCopy f (List.dropLast (a :: rest)) ++ f (List.getLastD rest a) = commaSep f (a :: rest) := by
  intro rest
  induction rest with
  | nil =>
    intro a
    simp [sepCopy, commaSep]
  | cons b rest2 ih =>
    intro a
    rw [List.dropLast_cons₂, List.getLastD_cons]
    simp only [sepCopy]
    rw [String.append_assoc, String.append_assoc, ih b]
    simp [commaSep, String.append_assoc]

theorem vecOut_eq_specRender (f : α → String) :
    ∀ (v : List α), v ≠ [] → vecOut f v = specRender f v := by
  intro v hv
  cases v with
  | nil => exact absurd rfl hv
  | cons a rest =>
    simp only [vecOut, specRender]
    rw [← sepCopy_getLastD f rest a]
    simp [String.append_assoc]

theorem arrOut_eq_vecOut (f : α → String) (v : List α) : arrOut f v = vecOut f v := by
  cases v <;> rfl

/-! ## Claim theorems -/

/-- C1: for every element type (the two instantiated ones), bounds with
`min ≤ max`, seed and length, two `fillRnd` calls on equal-length sequences
with the same parameters produce identical output sequences regardless of
the sequences' initial contents: the loop never reads the old elements and
draws from a generator determined by the seed alone. -/
theorem fillRnd_deterministic (a1 a2 : List Int) (f1 f2 : List Rat)
    (mn mx seed fseed : Int) (rmn rmx : Rat) (fuel : Nat)
    (hle : mn ≤ mx) (hfle : rmn ≤ rmx)
    (hlen : a1.length = a2.length) (hflen : f1.length = f2.length) :
    fillRndInt a1 mn mx fuel seed = fillRndInt a2 mn mx fuel seed ∧
    fillRndFloat f1 rmn rmx fseed = fillRndFloat f2 rmn rmx fseed :=
  ⟨fillRndIntGo_congr a1 a2 _ hlen, fillRndFloatGo_congr f1 f2 _ hflen⟩

/-- C1 witness: two length-2 integer sequences with different initial
contents, and two length-1 float sequences, give identical fills. -/
theorem fillRnd_deterministic_witness :
    fillRndInt [0, 0] 1 10 3 42 = fillRndInt [5, 7] 1 10 3 42 ∧
    fillRndFloat [0] 1 100 7 = fillRndFloat [3] 1 100 7 :=
  fillRnd_deterministic [0, 0] [5, 7] [0] [3] 1 10 42 7 1 100 3
    (by norm_num) (by norm_num) rfl rfl

/-- C2: with `min ≤ max`, every element written by `fillRnd` lies in
`[min, max]`: for the integer instantiation whenever the fuel-bounded model
returns a result, and for the float instantiation (exact rational
semantics, where the underlying distribution produces values in
`[min, max)` ⊆ `[min, max]`). -/
theorem fillRnd_range_containment (arr out : List Int) (farr : List Rat)
    (mn mx seed fseed : Int) (rmn rmx : Rat) (fuel : Nat)
    (hle : mn ≤ mx) (hfle : rmn ≤ rmx)
    (h : fillRndInt arr mn mx fuel seed = some out) :
    (∀ e ∈ out, mn ≤ e ∧ e ≤ mx) ∧
    (∀ e ∈ fillRndFloat farr rmn rmx fseed, rmn ≤ e ∧ e ≤ rmx) :=
  ⟨fillRndIntGo_range hle (mtFromSeed_wf seed) h,
   fillRndFloatGo_range hfle farr _ (mtFromSeed_wf fseed)⟩

/-- C2 witness: the length-2 fill with bounds [1, 10] and seed 1337
evaluates to [3, 6], and both halves of the range claim hold there. -/
theorem fillRnd_range_containment_witness :
    (∀ e ∈ ([3, 6] : List Int), (1 : Int) ≤ e ∧ e ≤ 10) ∧
    (∀ e ∈ fillRndFloat [0] 1 100 1337, (1 : Rat) ≤ e ∧ e ≤ 100) :=
  fillRnd_range_containment [0, 0] [3, 6] [0] 1 10 1337 1337 1 100 3
    (by norm_num) (by norm_num) (by decide)

/-- C3: the claim says malformed type combinations are rejected at compile
time with instantiation prevented entirely.  The code writes the constraint
as `std::enable_if<..., void>` WITHOUT taking `::type` (lines 31-34), so the
default template argument is a well-formed type for arithmetic and
non-arithmetic, iterable and non-iterable containers alike: substitution
never fails and the overload is never removed.  The intended form with
`::type` (what the in-source documentation describes) would reject exactly
the bad combinations.  This theorem exhibits the divergence. -/
theorem fillRnd_constraint_inert :
    fillRndInstantiable false true = true ∧
    fillRndInstantiable false false = true ∧
    fillRndInstantiable true false = true ∧
    substitutionSucceeds (fillRndIntendedConstraint false true) = false ∧
    substitutionSucceeds (fillRndIntendedConstraint true false) = false ∧
    substitutionSucceeds (fillRndIntendedConstraint true true) = true :=
  ⟨rfl, rfl, rfl, rfl, rfl, rfl⟩

/-- C4: the sampling algorithm is selected by the element type through the
type-level conditional `disType` (modelled by `disTypeFor` on the
`is_integral` flag): the integer uniform distribution when integral, the
continuous uniform distribution when floating-point.  The integer
distribution is inclusive of both `min` and `max`: every `v ∈ [min, max]`
is hit by some accepted raw draw.  The real distribution keeps every raw
draw inside `[min, max]`. -/
theorem disType_dispatch (mn mx v : Int) (rmn rmx : Rat) (r : Nat)
    (h1 : mn ≤ v) (h2 : v ≤ mx) (h3 : urangeOf mn mx < U32 - 1)
    (h4 : rmn ≤ rmx) (h5 : r < U32) :
    disTypeFor true = DistChoice.intDist ∧
    disTypeFor false = DistChoice.realDist ∧
    (∃ raw, raw < uiPast mn mx ∧ mn + (raw / uiScaling mn mx : Nat) = v) ∧
    (rmn ≤ urValue rmn rmx r ∧ urValue rmn rmx r ≤ rmx) := by
  refine ⟨rfl, rfl, ?_, urValue_mem h4 h5⟩
  have hsc : 0 < uiScaling mn mx := Nat.div_pos (by omega) (by omega)
  refine ⟨(v - mn).toNat * uiScaling mn mx, ?_, ?_⟩
  · have hlt : (v - mn).toNat < urangeOf mn mx + 1 := by
      simp only [urangeOf]
      omega
    exact mul_lt_mul_of_pos_right hlt hsc
  · rw [Nat.mul_div_cancel _ hsc]
    omega

/-- C4 witness: with bounds [1, 10] the value 10 (the upper endpoint) is
attained by an accepted raw draw, and with float bounds [1, 100] the raw
draw 0 maps into the range. -/
theorem disType_dispatch_witness :
    disTypeFor true = DistChoice.intDist ∧
    disTypeFor false = DistChoice.realDist ∧
    (∃ raw, raw < uiPast 1 10 ∧ (1 : Int) + (raw / uiScaling 1 10 : Nat) = 10) ∧
    ((1 : Rat) ≤ urValue 1 100 0 ∧ urValue 1 100 0 ≤ 100) :=
  disType_dispatch 1 10 10 1 100 0 (by norm_num) (by norm_num) (by decide)
    (by norm_num) (by decide)

/-- C5: the fill mutates the sequence in place in the model's sense: the
output has exactly the input's length, and it consists of the first
`length` freshly drawn values of the per-call generator, nothing else.
(The model is pure, so no other state can change.) -/
theorem fillRnd_in_place_length (arr out : List Int) (farr : List Rat)
    (mn mx seed fseed : Int) (rmn rmx : Rat) (fuel : Nat)
    (h : fillRndInt arr mn mx fuel seed = some out) :
    out.length = arr.length ∧
    fillRndInt arr mn mx fuel seed = drawsInt mn mx fuel seed arr.length ∧
    (fillRndFloat farr rmn rmx fseed).length = farr.length ∧
    fillRndFloat farr rmn rmx fseed = drawsFloat rmn rmx fseed farr.length :=
  ⟨fillRndIntGo_length h, fillRndIntGo_eq_draws arr _,
   fillRndFloatGo_length farr _, fillRndFloatGo_eq_draws farr _⟩

/-- C5 witness: the concrete length-2 fill returns [3, 6]: length preserved
and equal to the first two draws. -/
theorem fillRnd_in_place_length_witness :
    ([3, 6] : List Int).length = ([0, 0] : List Int).length ∧
    fillRndInt [0, 0] 1 10 3 1337 = drawsInt 1 10 3 1337 ([0, 0] : List Int).length ∧
    (fillRndFloat [0] 1 100 5).length = ([0] : List Rat).length ∧
    fillRndFloat [0] 1 100 5 = drawsFloat 1 100 5 ([0] : List Rat).length :=
  fillRnd_in_place_length [0, 0] [3, 6] [0] 1 10 1337 5 1 100 3 (by decide)

/-- C6: omitting the seed argument behaves exactly as passing the constant
1337 (the C++ default argument on line 35, modelled by the wrappers). -/
theorem fillRnd_default_seed (arr : List Int) (farr : List Rat)
    (mn mx : Int) (rmn rmx : Rat) (fuel : Nat) :
    fillRndIntDefault arr mn mx fuel = fillRndInt arr mn mx fuel 1337 ∧
    fillRndFloatDefault farr rmn rmx = fillRndFloat farr rmn rmx 1337 :=
  ⟨rfl, rfl⟩

/-- C7: filling a zero-length sequence is a no-op with no error: the result
is the empty sequence again (and `some`, i.e. no failure, in the
fuel-bounded integer model). -/
theorem fillRnd_empty_noop (mn mx seed fseed : Int) (rmn rmx : Rat) (fuel : Nat) :
    fillRndInt [] mn mx fuel seed = some [] ∧ fillRndFloat [] rmn rmx fseed = [] :=
  ⟨rfl, rfl⟩

/-- C8: a length-10 integer fill with bounds [1, 10] and seed 43 differs
from the seed-42 fill in at least one position (already at position 0:
2 versus 4).  Both outputs are computed by the model. -/
theorem fillRnd_seed_sensitivity :
    fillRndInt (List.replicate 10 0) 1 10 3 42 = some [4, 8, 10, 2, 8, 8, 6, 6, 2, 5] ∧
    fillRndInt (List.replicate 10 0) 1 10 3 43 = some [2, 5, 7, 2, 2, 2, 3, 2, 4, 9] ∧
    ([2, 5, 7, 2, 2, 2, 3, 2, 4, 9] : List Int).getD 0 0 ≠
      ([4, 8, 10, 2, 8, 8, 6, 6, 2, 5] : List Int).getD 0 0 :=
  ⟨by decide, by decide, by decide⟩

/-- C9 counterexample: on the empty sequence the helpers write nothing at
all (the whole body is guarded by `!v.empty()`), not a bracketed list:
the output is `""` while the spec's rendering is `"[]"`. -/
theorem displayHelpers_empty_cex :
    vecOut (fun n : Int => toString n) [] ≠ specRender (fun n : Int => toString n) [] ∧
    arrOut (fun n : Int => toString n) [] ≠ specRender (fun n : Int => toString n) [] ∧
    vecOut (fun n : Int => toString n) [] = "" ∧
    specRender (fun n : Int => toString n) [] = "[]" := by
  refine ⟨?_, ?_, rfl, rfl⟩ <;> decide

/-- C9 (amended): for every nonempty sequence both display helpers write
the bracketed, comma-separated list of the elements in order; for the empty
sequence they write nothing.  They are pure functions of the sequence, so
the sequence is not mutated. -/
theorem displayHelpers_render (f : α → String) (v : List α) (h : v ≠ []) :
    vecOut f v = specRender f v ∧ arrOut f v = specRender f v ∧
    vecOut f ([] : List α) = "" ∧ arrOut f ([] : List α) = "" :=
  ⟨vecOut_eq_specRender f v h, (arrOut_eq_vecOut f v).trans (vecOut_eq_specRender f v h),
   rfl, rfl⟩

/-- C9 witness: the helpers render [1, 2, 3] exactly as the bracketed,
comma-separated spec rendering. -/
theorem displayHelpers_render_witness :
    vecOut (fun n : Int => toString n) [1, 2, 3] = specRender (fun n : Int => toString n) [1, 2, 3] ∧
    arrOut (fun n : Int => toString n) [1, 2, 3] = specRender (fun n : Int => toString n) [1, 2, 3] ∧
    vecOut (fun n : Int => toString n) ([] : List Int) = "" ∧
    arrOut (fun n : Int => toString n) ([] : List Int) = "" :=
  displayHelpers_render (fun n : Int => toString n) [1, 2, 3] (by decide)

/-- C10: for fixed element type, seed and bounds, filling a shorter
sequence yields exactly the first `n` values of filling a longer one: the
single per-call generator is consumed one draw per element in order. -/
theorem fillRnd_shorter_agrees (a1 a2 : List Int) (f1 f2 : List Rat) (out : List Int)
    (mn mx seed fseed : Int) (rmn rmx : Rat) (fuel : Nat)
    (hlen : a1.length ≤ a2.length) (hflen : f1.length ≤ f2.length)
    (h : fillRndInt a2 mn mx fuel seed = some out) :
    fillRndInt a1 mn mx fuel seed = some (out.take a1.length) ∧
    fillRndFloat f1 rmn rmx fseed = (fillRndFloat f2 rmn rmx fseed).take f1.length :=
  ⟨fillRndIntGo_take a1 a2 _ out hlen h, fillRndFloatGo_take f1 f2 _ hflen⟩

/-- C10 witness: the length-1 fill with seed 1337 equals the first element
of the length-2 fill [3, 6]. -/
theorem fillRnd_shorter_agrees_witness :
    fillRndInt [0] 1 10 3 1337 = some (([3, 6] : List Int).take ([0] : List Int).length) ∧
    fillRndFloat [0] 1 100 5 = (fillRndFloat [0, 0] 1 100 5).take ([0] : List Rat).length :=
  fillRnd_shorter_agrees [0] [0, 0] [0] [0, 0] [3, 6] 1 10 1337 5 1 100 3
    (by norm_num) (by norm_num) (by decide)

end FillArray
